import Mathlib

/-!
Verification of the iroha multi-signature (MST) state-merge engine and the
torii transaction processor against their specification.

The transaction-processor routing functions are translated from
`irohad/torii/processor/impl/transaction_processor_impl.cpp`.  The MST state
algebra (`MstState`, batch merge, completion extraction, expiry sweep) is not
present in this source snapshot — only its test
(`test/module/irohad/multi_sig_transactions/state_test.cpp`) is — so those
definitions are modelled from the specification's own words and are marked as
such in their doc comments.
-/

/-- Modelled from the spec: a Signature is a (signer identity, signature
bytes, contribution time) triple; signer identities are opaque totally
ordered values, modelled as naturals.  The shared-model signature class is
not part of this source snapshot. -/
structure Sig where
  signer : Nat
  bytes : Nat
  time : Nat
deriving DecidableEq, Repr

/-- Modelled from the spec: a Transaction has a content hash, a required
quorum count, a creation time and an accumulated collection of signatures
keyed by signer identity.  The shared-model transaction class is not part of
this source snapshot. -/
structure Tx where
  hash : Nat
  quorum : Nat
  createdTime : Nat
  sigs : List Sig
deriving DecidableEq, Repr

/-- Modelled from the spec: a Batch is an ordered sequence of transactions
identified by a hash over its transaction sequence.  The hash is kept as a
separate field so that a malformed remote batch (same hash, different
transaction sequence) is representable. -/
structure Batch where
  hash : Nat
  txs : List Tx
deriving DecidableEq, Repr

/-- An MstState is a finite map from batch hash to batch, represented as a
list of batches kept strictly sorted by hash. -/
abbrev MstState := List Batch

/-- Number of distinct signer identities among a transaction's signatures. -/
def distinctSigners (t : Tx) : Nat := ((t.sigs.map Sig.signer).dedup).length

/-- Modelled from the spec: a transaction is complete iff the number of
distinct signer identities in its signature set is at least its quorum. -/
def isCompleteTx (t : Tx) : Bool := decide (t.quorum ≤ distinctSigners t)

/-- Modelled from the spec: a batch is complete iff every transaction it
contains is complete. -/
def isCompleteBatch (b : Batch) : Bool := b.txs.all isCompleteTx

/-- The signature-independent content of a transaction: hash, quorum and
creation time. -/
def Tx.skeleton (t : Tx) : Nat × Nat × Nat := (t.hash, t.quorum, t.createdTime)

/-- The signature-independent content of a batch's transaction sequence. -/
def Batch.skeleton (b : Batch) : List (Nat × Nat × Nat) := b.txs.map Tx.skeleton

/-- Two batches are compatible when they carry the same hash and represent
the same transaction sequence (signatures aside). -/
def compatible (a b : Batch) : Bool := decide (a.hash = b.hash ∧ a.skeleton = b.skeleton)

/-- Modelled from the spec: the error taxonomy of the MST core.  The only
structural error is `MismatchedBatchError` (same batch hash, incompatible
transaction sequences). -/
inductive MstError
  | mismatchedBatch
deriving DecidableEq, Repr

/-- Modelled from the spec: union of two per-transaction signature
collections, keyed by signer identity; a signer present on both sides keeps
the first (local) side's value.  Both inputs are kept sorted by signer so
the representation is canonical. -/
def mergeSigs : List Sig → List Sig → List Sig
  | [], ys => ys
  | xs, [] => xs
  | x :: xs, y :: ys =>
    if x.signer < y.signer then x :: mergeSigs xs (y :: ys)
    else if y.signer < x.signer then y :: mergeSigs (x :: xs) ys
    else x :: mergeSigs xs ys
termination_by xs ys => xs.length + ys.length

/-- Modelled from the spec: merging two copies of the same transaction
takes the union of their signature collections; all other fields come from
the (equal) skeletons. -/
def mergeTx (t u : Tx) : Tx := { t with sigs := mergeSigs t.sigs u.sigs }

/-- Modelled from the spec: `merge(batchA, batchB)` requires both batches to
represent the same transaction sequence and fails with
`MismatchedBatchError` otherwise; on success each transaction position holds
the union of both inputs' signer-keyed signature collections. -/
def mergeBatch (a b : Batch) : Except MstError Batch :=
  if compatible a b then
    .ok { hash := a.hash, txs := List.zipWith mergeTx a.txs b.txs }
  else .error .mismatchedBatch

/-- The state representation invariant: batches strictly sorted by hash, so
hashes are unique keys. -/
def sortedByHash (s : MstState) : Prop := s.Pairwise (fun a b => a.hash < b.hash)

/-- Modelled from the spec: `empty` — zero batches. -/
def mstEmpty : MstState := []

/-- Result of a state-producing MST operation: the new state together with
the side output of newly completed batches. -/
structure OpResult where
  state : MstState
  completed : List Batch
deriving DecidableEq, Repr

/-- Modelled from the spec: completion extraction — a complete batch is
never retained in the returned state; it is moved to the side list of newly
completed batches. -/
def extractCompleted (s : MstState) : OpResult :=
  { state := s.filter (fun b => !isCompleteBatch b)
    completed := s.filter isCompleteBatch }

/-- Modelled from the spec: raw insertion into the hash-sorted batch map —
if the hash is absent the batch is added as-is, if present the stored batch
is replaced with the merge of the two copies. -/
def rawInsert : MstState → Batch → Except MstError MstState
  | [], b => .ok [b]
  | x :: xs, b =>
    if b.hash < x.hash then .ok (b :: x :: xs)
    else if x.hash < b.hash then
      match rawInsert xs b with
      | .ok s => .ok (x :: s)
      | .error e => .error e
    else
      match mergeBatch x b with
      | .ok m => .ok (m :: xs)
      | .error e => .error e

/-- Modelled from the spec: `insert(state, batch)` — raw insertion followed
by completion extraction. -/
def mstInsert (s : MstState) (b : Batch) : Except MstError OpResult :=
  match rawInsert s b with
  | .ok s' => .ok (extractCompleted s')
  | .error e => .error e

/-- Prepends a batch to a fallible state result, propagating the error. -/
def okCons (b : Batch) : Except MstError MstState → Except MstError MstState
  | .ok s => .ok (b :: s)
  | .error e => .error e

/-- Prepends a fallible merged batch to a fallible state result,
propagating the first error. -/
def mergeCons : Except MstError Batch → Except MstError MstState → Except MstError MstState
  | .ok m, .ok rest => .ok (m :: rest)
  | .error e, _ => .error e
  | .ok _, .error e => .error e

/-- Modelled from the spec: raw union of two hash-sorted batch maps — for
every hash present in either side the result holds the merge of both sides,
or the unmodified single-sided copy when only one side holds it. -/
def rawUnion : MstState → MstState → Except MstError MstState
  | [], ys => .ok ys
  | xs, [] => .ok xs
  | x :: xs, y :: ys =>
    if x.hash < y.hash then okCons x (rawUnion xs (y :: ys))
    else if y.hash < x.hash then okCons y (rawUnion (x :: xs) ys)
    else mergeCons (mergeBatch x y) (rawUnion xs ys)
termination_by xs ys => xs.length + ys.length

/-- Modelled from the spec: `union(stateA, stateB)` — raw union followed by
completion extraction. -/
def mstUnion (a b : MstState) : Except MstError OpResult :=
  match rawUnion a b with
  | .ok s => .ok (extractCompleted s)
  | .error e => .error e

/-- Expiry ordering used for the expired output: oldest deadline first, ties
broken by batch hash. -/
def deadlineLt (dl : Batch → Nat) (a b : Batch) : Prop :=
  dl a < dl b ∨ (dl a = dl b ∧ a.hash ≤ b.hash)

instance (dl : Batch → Nat) : DecidableRel (deadlineLt dl) := fun a b =>
  decidable_of_iff (dl a < dl b ∨ (dl a = dl b ∧ a.hash ≤ b.hash)) Iff.rfl

/-- Modelled from the spec: `extractExpired(state, now)` partitions the
batches whose deadline (given by the pluggable completer policy `dl`) is at
most `now` into the expired output, ordered oldest deadline first with ties
broken by hash; the remaining batches form the new state. -/
def extractExpired (dl : Batch → Nat) (s : MstState) (now : Nat) : MstState × List Batch :=
  (s.filter (fun b => !(decide (dl b ≤ now)))
   , List.insertionSort (deadlineLt dl) (s.filter (fun b => decide (dl b ≤ now))))

/-- Modelled from the spec: `sweepExpired(now)` — the processor replaces its
local state with the remaining batches and emits the expired ones. -/
def sweepExpired (dl : Batch → Nat) (s : MstState) (now : Nat) : MstState × List Batch :=
  extractExpired dl s now

/-- Modelled from the spec: `applyRemoteState` unions a received remote
snapshot into the local state; on success the completions become Prepared
notifications, on a `MismatchedBatchError` the local state is kept
unchanged, nothing is emitted on the notification streams, and the error is
returned synchronously to the caller. -/
def applyRemoteState (loc remote : MstState) : MstState × List Batch × Except MstError Unit :=
  match mstUnion loc remote with
  | .ok r => (r.state, r.completed, .ok ())
  | .error e => (loc, [], .error e)

/-- States reachable by the MST processor: from the empty state through
successful inserts, unions and expiry sweeps. -/
inductive Reachable : MstState → Prop
  | empty : Reachable mstEmpty
  | insertStep {s : MstState} {b : Batch} {r : OpResult} :
      Reachable s → mstInsert s b = .ok r → Reachable r.state
  | unionStep {s t : MstState} {r : OpResult} :
      Reachable s → mstUnion s t = .ok r → Reachable r.state
  | sweepStep {s : MstState} (dl : Batch → Nat) (now : Nat) :
      Reachable s → Reachable (sweepExpired dl s now).1

/-- Transaction statuses the processor publishes on the status bus,
following the builder calls in `transaction_processor_impl.cpp`. -/
inductive TxStatus
  | statelessValidationSuccess
  | statefulValidationFailed
  | statefulValidationSuccess
  | committed
  | mstExpired
deriving DecidableEq, Repr

/-- Observable calls the transaction processor makes on its collaborators:
status-bus publications, the two consensus-propagation entry points of the
peer communication service, and the two MST propagation entry points.
`mstPropagateBatch` models MstProcessor's batch propagation entry point
(the spec's `propagateBatch`); the processor code as written never calls
it — its per-batch MST path loops over the batch's transactions instead. -/
inductive Effect
  | publishStatus (st : TxStatus) (hash : Nat)
  | propagateTransaction (t : Tx)
  | propagateBatch (b : Batch)
  | mstPropagateTransaction (t : Tx)
  | mstPropagateBatch (b : Batch)
deriving DecidableEq, Repr

/-- `TransactionProcessorImpl::transactionHandle`: when the size of the
transaction's signature collection is below its quorum the transaction goes
to `mst_processor_->propagateTransaction`, otherwise it goes to
`pcs_->propagate_transaction`. -/
def transactionHandle (t : Tx) : List Effect :=
  if t.sigs.length < t.quorum then [.mstPropagateTransaction t]
  else [.propagateTransaction t]

/-- Modelled from the spec: `TransactionBatch::hasAllSignatures` (interface
not part of this source snapshot) — every transaction of the batch carries
at least quorum-many signatures. -/
def hasAllSignatures (b : Batch) : Bool :=
  b.txs.all (fun t => decide (t.quorum ≤ t.sigs.length))

/-- Per-batch body of `TransactionProcessorImpl::transactionSequenceHandle`:
a batch with all its signatures goes to `pcs_->propagate_batch`; otherwise
each of its transactions goes to `mst_processor_->propagateTransaction`. -/
def batchHandle (b : Batch) : List Effect :=
  if hasAllSignatures b then [.propagateBatch b]
  else b.txs.map (fun t => .mstPropagateTransaction t)

/-- `TransactionProcessorImpl::transactionSequenceHandle`: iterates over the
batches of the sequence. -/
def transactionSequenceHandle (seq : List Batch) : List Effect :=
  seq.flatMap batchHandle

/-- Subscription body on `mst_processor_->onPreparedTransactions()`: each
prepared transaction is forwarded to `pcs_->propagate_transaction`. -/
def onPreparedHandle (t : Tx) : List Effect := [.propagateTransaction t]

/-- The prepared stream lifted to a finite event history. -/
def processPreparedStream (ts : List Tx) : List Effect := ts.flatMap onPreparedHandle

/-- Subscription body on `mst_processor_->onExpiredTransactions()`: for each
expired transaction one MST-expired status carrying that transaction's hash
is published on the status bus. -/
def onExpiredHandle (t : Tx) : List Effect := [.publishStatus .mstExpired t.hash]

/-- The expired stream lifted to a finite event history. -/
def processExpiredStream (ts : List Tx) : List Effect := ts.flatMap onExpiredHandle

/-- Recognizer for status-bus publications. -/
def isPublishStatus : Effect → Bool
  | .publishStatus _ _ => true
  | _ => false

/-- Projection of an effect onto an MST propagation call. -/
def mstCallOf : Effect → Option Tx
  | .mstPropagateTransaction t => some t
  | _ => none

/-- Signature agreement between two copies of a transaction: any signer
present on both sides carries identical signature data. -/
def sigAgree (t u : Tx) : Prop :=
  ∀ s ∈ t.sigs, ∀ r ∈ u.sigs, s.signer = r.signer → s = r

/-- Signature agreement between two copies of a batch, position by
position. -/
def batchSigAgree (a b : Batch) : Prop :=
  ∀ p ∈ a.txs.zip b.txs, sigAgree p.1 p.2

/-- Signature agreement between two states: any two batches under the same
hash agree on the signature data of their shared signers. -/
def statesAgree (a b : MstState) : Prop :=
  ∀ x ∈ a, ∀ y ∈ b, x.hash = y.hash → batchSigAgree x y

instance (s : MstState) : Decidable (sortedByHash s) :=
  decidable_of_iff (s.Pairwise fun a b => a.hash < b.hash) (by rw [sortedByHash])

/-- Concrete transaction used in witnesses: quorum 1, one signature. -/
def wTx : Tx := { hash := 3, quorum := 1, createdTime := 0, sigs := [⟨1, 10, 0⟩] }

/-- Concrete batch used in witnesses: fully signed (quorum 1, one
signature). -/
def wB4 : Batch := { hash := 2, txs := [wTx] }

/-- Concrete transaction used in witnesses: quorum 2, one signature. -/
def w10Tx : Tx := { hash := 5, quorum := 2, createdTime := 0, sigs := [⟨1, 10, 0⟩] }

/-- Concrete batch used in witnesses: below quorum (quorum 2, one
signature). -/
def wB10 : Batch := { hash := 6, txs := [w10Tx] }

/-- Concrete batch used in the expiry witness. -/
def w7B : Batch := { hash := 4, txs := [w10Tx] }

/-- First copy of a quorum-2 single-transaction batch, signed by signer 1. -/
def caTx1 : Tx := { hash := 1, quorum := 2, createdTime := 7, sigs := [⟨1, 10, 0⟩] }

/-- Second copy of the quorum-2 transaction, signed by signer 2. -/
def caTx2 : Tx := { hash := 1, quorum := 2, createdTime := 7, sigs := [⟨2, 20, 0⟩] }

/-- First copy of the quorum-2 batch. -/
def caB1 : Batch := { hash := 9, txs := [caTx1] }

/-- Second copy of the quorum-2 batch. -/
def caB2 : Batch := { hash := 9, txs := [caTx2] }

/-- Merge of the two quorum-2 copies: both signatures present, quorum
reached. -/
def caMerged : Batch :=
  { hash := 9, txs := [{ hash := 1, quorum := 2, createdTime := 7, sigs := [⟨1, 10, 0⟩, ⟨2, 20, 0⟩] }] }

/-- First copy of a quorum-3 single-transaction batch, signed by signer 1. -/
def w2Tx1 : Tx := { hash := 1, quorum := 3, createdTime := 7, sigs := [⟨1, 10, 0⟩] }

/-- Second copy of the quorum-3 transaction, signed by signer 2. -/
def w2Tx2 : Tx := { hash := 1, quorum := 3, createdTime := 7, sigs := [⟨2, 20, 0⟩] }

/-- First copy of the quorum-3 batch. -/
def w2B1 : Batch := { hash := 9, txs := [w2Tx1] }

/-- Second copy of the quorum-3 batch. -/
def w2B2 : Batch := { hash := 9, txs := [w2Tx2] }

/-- Merge of the two quorum-3 copies: both signatures present, still below
quorum. -/
def w2M : Batch :=
  { hash := 9, txs := [{ hash := 1, quorum := 3, createdTime := 7, sigs := [⟨1, 10, 0⟩, ⟨2, 20, 0⟩] }] }

/-- State holding one batch whose only signature has signer 1 and signature
bytes 10. -/
def c6A : MstState := [{ hash := 9, txs := [w2Tx1] }]

/-- State holding a copy of the same batch whose only signature has the same
signer 1 but different signature bytes 20. -/
def c6B : MstState :=
  [{ hash := 9, txs := [{ hash := 1, quorum := 3, createdTime := 7, sigs := [⟨1, 20, 0⟩] }] }]

/-- Local batch for the mismatched-batch scenario. -/
def mmX : Batch := { hash := 9, txs := [w2Tx1] }

/-- Remote batch carrying the same hash but a different transaction
sequence. -/
def mmY : Batch := { hash := 9, txs := [] }

theorem mem_mergeSigs_left {s : Sig} : ∀ xs ys : List Sig, s ∈ xs → s ∈ mergeSigs xs ys := by
  intro xs ys
  induction xs, ys using mergeSigs.induct with
  | case1 ys => intro h; cases h
  | case2 xs h => intro hm; simpa [mergeSigs] using hm
  | case3 x xs y ys hlt ih =>
    intro hm
    rw [mergeSigs]
    simp only [if_pos hlt]
    rcases List.mem_cons.mp hm with h | h
    · simp [h]
    · exact List.mem_cons_of_mem _ (ih h)
  | case4 x xs y ys hnlt hlt ih =>
    intro hm
    rw [mergeSigs]
    simp only [if_neg hnlt, if_pos hlt]
    exact List.mem_cons_of_mem _ (ih hm)
  | case5 x xs y ys hnlt hnlt2 ih =>
    intro hm
    rw [mergeSigs]
    simp only [if_neg hnlt, if_neg hnlt2]
    rcases List.mem_cons.mp hm with h | h
    · simp [h]
    · exact List.mem_cons_of_mem _ (ih h)

theorem mem_mergeSigs_right {r : Sig} :
    ∀ xs ys : List Sig, r ∈ ys → ∃ u ∈ mergeSigs xs ys, u.signer = r.signer := by
  intro xs ys
  induction xs, ys using mergeSigs.induct with
  | case1 ys => intro h; exact ⟨r, by simpa [mergeSigs] using h, rfl⟩
  | case2 xs h => intro hm; cases hm
  | case3 x xs y ys hlt ih =>
    intro hm
    rw [mergeSigs]
    simp only [if_pos hlt]
    obtain ⟨u, hu, hs⟩ := ih hm
    exact ⟨u, List.mem_cons_of_mem _ hu, hs⟩
  | case4 x xs y ys hnlt hlt ih =>
    intro hm
    rw [mergeSigs]
    simp only [if_neg hnlt, if_pos hlt]
    rcases List.mem_cons.mp hm with h | h
    · exact ⟨y, List.mem_cons_self _ _, by rw [h]⟩
    · obtain ⟨u, hu, hs⟩ := ih h
      exact ⟨u, List.mem_cons_of_mem _ hu, hs⟩
  | case5 x xs y ys hnlt hnlt2 ih =>
    intro hm
    rw [mergeSigs]
    simp only [if_neg hnlt, if_neg hnlt2]
    rcases List.mem_cons.mp hm with h | h
    · refine ⟨x, List.mem_cons_self _ _, ?_⟩
      have : x.signer = y.signer := Nat.le_antisymm (Nat.not_lt.mp hnlt2) (Nat.not_lt.mp hnlt)
      rw [this, h]
    · obtain ⟨u, hu, hs⟩ := ih h
      exact ⟨u, List.mem_cons_of_mem _ hu, hs⟩

theorem mergeSigs_comm :
    ∀ xs ys : List Sig, (∀ s ∈ xs, ∀ r ∈ ys, s.signer = r.signer → s = r) →
    mergeSigs xs ys = mergeSigs ys xs := by
  intro xs ys
  induction xs, ys using mergeSigs.induct with
  | case1 ys => intro _; cases ys <;> simp [mergeSigs]
  | case2 xs h => intro _; cases xs <;> simp [mergeSigs]
  | case3 x xs y ys hlt ih =>
    intro hagree
    rw [mergeSigs, mergeSigs]
    simp only [if_pos hlt, if_neg (Nat.lt_asymm hlt)]
    rw [ih (fun s hs r hr he => hagree s (List.mem_cons_of_mem _ hs) r hr he)]
  | case4 x xs y ys hnlt hlt ih =>
    intro hagree
    rw [mergeSigs, mergeSigs]
    simp only [if_pos hlt, if_neg hnlt, if_neg (Nat.lt_asymm hlt)]
    rw [ih (fun s hs r hr he => hagree s hs r (List.mem_cons_of_mem _ hr) he)]
  | case5 x xs y ys hnlt hnlt2 ih =>
    intro hagree
    have hsig : x.signer = y.signer := Nat.le_antisymm (Nat.not_lt.mp hnlt2) (Nat.not_lt.mp hnlt)
    have hxy : x = y :=
      hagree x (List.mem_cons_self _ _) y (List.mem_cons_self _ _) hsig
    rw [mergeSigs, mergeSigs]
    simp only [if_neg hnlt, if_neg hnlt2]
    rw [ih (fun s hs r hr he =>
      hagree s (List.mem_cons_of_mem _ hs) r (List.mem_cons_of_mem _ hr) he), hxy]

theorem map_eq_map_zip {α β γ : Type} (f : α → γ) (g : β → γ) :
    ∀ (as : List α) (bs : List β), as.map f = bs.map g → ∀ p ∈ as.zip bs, f p.1 = g p.2 := by
  intro as
  induction as with
  | nil => intro bs _ p hp; cases hp
  | cons a as ih =>
    intro bs hm p hp
    cases bs with
    | nil => cases hp
    | cons b bs =>
      simp only [List.map_cons, List.cons.injEq] at hm
      rcases List.mem_cons.mp hp with h | h
      · rw [h]; exact hm.1
      · exact ih bs hm.2 p h

theorem zipWith_comm_of {α β : Type} (f : α → α → β) :
    ∀ as bs : List α, (∀ p ∈ as.zip bs, f p.1 p.2 = f p.2 p.1) →
    List.zipWith f as bs = List.zipWith f bs as := by
  intro as
  induction as with
  | nil => intro bs _; cases bs <;> simp
  | cons a as ih =>
    intro bs h
    cases bs with
    | nil => simp
    | cons b bs =>
      simp only [List.zipWith_cons_cons, List.cons.injEq]
      exact ⟨h (a, b) (by simp [List.zip_cons_cons]), ih bs fun p hp => h p (by simp [List.zip_cons_cons, hp])⟩

theorem mergeTx_comm {t u : Tx} (hsk : t.skeleton = u.skeleton) (hagree : sigAgree t u) :
    mergeTx t u = mergeTx u t := by
  have hf : t.hash = u.hash ∧ t.quorum = u.quorum ∧ t.createdTime = u.createdTime := by
    simpa [Tx.skeleton, Prod.ext_iff] using hsk
  have hsigs : mergeSigs t.sigs u.sigs = mergeSigs u.sigs t.sigs :=
    mergeSigs_comm t.sigs u.sigs hagree
  cases t; cases u
  simp only [mergeTx] at *
  simp_all

theorem compatible_symm (a b : Batch) : compatible a b = compatible b a := by
  simp only [compatible]
  exact decide_eq_decide.mpr (by constructor <;> (intro h; exact ⟨h.1.symm, h.2.symm⟩))

theorem mergeBatch_comm {a b : Batch} (hh : a.hash = b.hash) (hagree : batchSigAgree a b) :
    mergeBatch a b = mergeBatch b a := by
  unfold mergeBatch
  rw [← compatible_symm a b]
  by_cases hc : compatible a b = true
  · simp only [hc, if_true]
    have hsk : a.skeleton = b.skeleton := (of_decide_eq_true hc).2
    have hzip : List.zipWith mergeTx a.txs b.txs = List.zipWith mergeTx b.txs a.txs := by
      refine zipWith_comm_of mergeTx a.txs b.txs fun p hp => ?_
      have hps : p.1.skeleton = p.2.skeleton :=
        map_eq_map_zip Tx.skeleton Tx.skeleton a.txs b.txs hsk p hp
      exact mergeTx_comm hps (hagree p hp)
    rw [hzip, hh]
  · simp only [Bool.not_eq_true] at hc
    simp [hc]

theorem rawUnion_comm :
    ∀ a b : MstState, statesAgree a b → rawUnion a b = rawUnion b a := by
  intro a b
  induction a, b using rawUnion.induct with
  | case1 ys => intro _; cases ys <;> simp [rawUnion]
  | case2 xs h => intro _; cases xs <;> simp [rawUnion]
  | case3 x xs y ys hlt ih =>
    intro hagree
    rw [rawUnion, rawUnion]
    simp only [if_pos hlt, if_neg (Nat.lt_asymm hlt)]
    rw [ih fun p hp q hq he => hagree p (List.mem_cons_of_mem _ hp) q hq he]
  | case4 x xs y ys hnlt hlt ih =>
    intro hagree
    rw [rawUnion, rawUnion]
    simp only [if_pos hlt, if_neg hnlt, if_neg (Nat.lt_asymm hlt)]
    rw [ih fun p hp q hq he => hagree p hp q (List.mem_cons_of_mem _ hq) he]
  | case5 x xs y ys hnlt hnlt2 ih =>
    intro hagree
    have hh : x.hash = y.hash := Nat.le_antisymm (Nat.not_lt.mp hnlt2) (Nat.not_lt.mp hnlt)
    have hmb : mergeBatch x y = mergeBatch y x :=
      mergeBatch_comm hh (hagree x (List.mem_cons_self _ _) y (List.mem_cons_self _ _) hh)
    rw [rawUnion, rawUnion]
    simp only [if_neg hnlt, if_neg hnlt2]
    rw [hmb, ih fun p hp q hq he =>
      hagree p (List.mem_cons_of_mem _ hp) q (List.mem_cons_of_mem _ hq) he]

theorem mstUnion_comm {a b : MstState} (hagree : statesAgree a b) :
    mstUnion a b = mstUnion b a := by
  unfold mstUnion
  rw [rawUnion_comm a b hagree]

theorem rawInsert_decomp {b x : Batch} :
    ∀ s : MstState, sortedByHash s → x ∈ s → x.hash = b.hash →
    ∃ pre post, s = pre ++ x :: post ∧
      (∀ e, mergeBatch x b = .error e → rawInsert s b = .error e) ∧
      (∀ m, mergeBatch x b = .ok m → rawInsert s b = .ok (pre ++ m :: post)) := by
  intro s
  induction s with
  | nil => intro _ hx; cases hx
  | cons y ys ih =>
    intro hsor hx hh
    obtain ⟨hhead, htail⟩ := List.pairwise_cons.mp hsor
    rcases List.mem_cons.mp hx with hxy | hxs
    · subst hxy
      refine ⟨[], ys, rfl, ?_, ?_⟩
      · intro e he
        rw [rawInsert]
        simp only [← hh, Nat.lt_irrefl, if_false, he]
      · intro m hm
        rw [rawInsert]
        simp only [← hh, Nat.lt_irrefl, if_false, hm]
        simp
    · have hyx : y.hash < x.hash := hhead x hxs
      have hyb : y.hash < b.hash := hh ▸ hyx
      obtain ⟨pre, post, hdec, herr, hok⟩ := ih htail hxs hh
      refine ⟨y :: pre, post, by simp [hdec], ?_, ?_⟩
      · intro e he
        rw [rawInsert]
        simp only [if_neg (Nat.lt_asymm hyb), if_pos hyb, herr e he]
      · intro m hm
        rw [rawInsert]
        simp only [if_neg (Nat.lt_asymm hyb), if_pos hyb, hok m hm]
        simp

theorem mergeBatch_error_of_incompatible {x b : Batch} (hc : compatible x b = false) :
    mergeBatch x b = .error .mismatchedBatch := by
  simp [mergeBatch, hc]

theorem mstInsert_error_of_incompatible {s : MstState} {x b : Batch}
    (hs : sortedByHash s) (hx : x ∈ s) (hh : x.hash = b.hash)
    (hc : compatible x b = false) : mstInsert s b = .error .mismatchedBatch := by
  obtain ⟨pre, post, _, herr, _⟩ := rawInsert_decomp s hs hx hh
  have := herr .mismatchedBatch (mergeBatch_error_of_incompatible hc)
  simp [mstInsert, this]

theorem mstInsert_merge {s : MstState} {x b m : Batch}
    (hs : sortedByHash s) (hx : x ∈ s) (hh : x.hash = b.hash)
    (hm : mergeBatch x b = .ok m) :
    ∃ pre post, s = pre ++ x :: post ∧
      mstInsert s b = .ok (extractCompleted (pre ++ m :: post)) ∧
      (∀ z ∈ pre, z.hash < x.hash) ∧ (∀ z ∈ post, x.hash < z.hash) := by
  obtain ⟨pre, post, hdec, _, hok⟩ := rawInsert_decomp s hs hx hh
  refine ⟨pre, post, hdec, by simp [mstInsert, hok m hm], ?_, ?_⟩
  · intro z hz
    have := (List.pairwise_append.mp (hdec ▸ hs)).2.2 z hz x (List.mem_cons_self _ _)
    exact this
  · intro z hz
    have := List.pairwise_cons.mp (List.pairwise_append.mp (hdec ▸ hs)).2.1
    exact this.1 z hz

theorem rawUnion_error :
    ∀ a b : MstState, sortedByHash a → sortedByHash b →
    (∃ x ∈ a, ∃ y ∈ b, x.hash = y.hash ∧ compatible x y = false) →
    rawUnion a b = .error .mismatchedBatch := by
  intro a b
  induction a, b using rawUnion.induct with
  | case1 ys =>
    rintro _ _ ⟨x, hx, _⟩
    cases hx
  | case2 xs h =>
    rintro _ _ ⟨x, hx, y, hy, _⟩
    cases hy
  | case3 x0 xs y0 ys hlt ih =>
    rintro hsa hsb ⟨x, hx, y, hy, hh, hc⟩
    have hy0 : y0.hash ≤ y.hash := by
      rcases List.mem_cons.mp hy with h | h
      · rw [h]
      · exact Nat.le_of_lt ((List.pairwise_cons.mp hsb).1 y h)
    have hxxs : x ∈ xs := by
      rcases List.mem_cons.mp hx with h | h
      · exfalso
        rw [h] at hh
        exact Nat.lt_irrefl _ (Nat.lt_of_lt_of_le (hh ▸ hlt) (hh ▸ hy0))
      · exact h
    rw [rawUnion]
    simp only [if_pos hlt]
    rw [ih (List.Pairwise.of_cons hsa) hsb ⟨x, hxxs, y, hy, hh, hc⟩]
    rfl
  | case4 x0 xs y0 ys hnlt hlt ih =>
    rintro hsa hsb ⟨x, hx, y, hy, hh, hc⟩
    have hx0 : x0.hash ≤ x.hash := by
      rcases List.mem_cons.mp hx with h | h
      · rw [h]
      · exact Nat.le_of_lt ((List.pairwise_cons.mp hsa).1 x h)
    have hyys : y ∈ ys := by
      rcases List.mem_cons.mp hy with h | h
      · exfalso
        rw [h] at hh
        exact Nat.lt_irrefl _ (Nat.lt_of_lt_of_le (hh ▸ hlt) hx0)
      · exact h
    rw [rawUnion]
    simp only [if_neg hnlt, if_pos hlt]
    rw [ih hsa (List.Pairwise.of_cons hsb) ⟨x, hx, y, hyys, hh, hc⟩]
    rfl
  | case5 x0 xs y0 ys hnlt hnlt2 ih =>
    rintro hsa hsb ⟨x, hx, y, hy, hh, hc⟩
    have hhh : x0.hash = y0.hash := Nat.le_antisymm (Nat.not_lt.mp hnlt2) (Nat.not_lt.mp hnlt)
    rw [rawUnion]
    simp only [if_neg hnlt, if_neg hnlt2]
    by_cases hcomp : compatible x0 y0 = true
    · have hxxs : x ∈ xs ∧ y ∈ ys := by
        rcases List.mem_cons.mp hx with h1 | h1 <;> rcases List.mem_cons.mp hy with h2 | h2
        · exfalso; rw [h1, h2] at hc; rw [hc] at hcomp; cases hcomp
        · exfalso
          have : y0.hash < y.hash := (List.pairwise_cons.mp hsb).1 y h2
          rw [h1] at hh
          exact Nat.lt_irrefl _ (hh ▸ hhh ▸ this)
        · exfalso
          have : x0.hash < x.hash := (List.pairwise_cons.mp hsa).1 x h1
          rw [h2] at hh
          exact Nat.lt_irrefl _ (hh ▸ (hhh.symm ▸ this))
        · exact ⟨h1, h2⟩
      rw [ih (List.Pairwise.of_cons hsa) (List.Pairwise.of_cons hsb)
        ⟨x, hxxs.1, y, hxxs.2, hh, hc⟩]
      cases hmb : mergeBatch x0 y0 <;> rfl
    · have : compatible x0 y0 = false := Bool.not_eq_true _ ▸ (by simpa using hcomp)
      rw [mergeBatch_error_of_incompatible this]
      rfl

theorem mstUnion_error_of_incompatible {a b : MstState} {x y : Batch}
    (hsa : sortedByHash a) (hsb : sortedByHash b) (hx : x ∈ a) (hy : y ∈ b)
    (hh : x.hash = y.hash) (hc : compatible x y = false) :
    mstUnion a b = .error .mismatchedBatch := by
  rw [mstUnion, rawUnion_error a b hsa hsb ⟨x, hx, y, hy, hh, hc⟩]

theorem applyRemoteState_error {loc remote : MstState}
    (h : mstUnion loc remote = .error .mismatchedBatch) :
    applyRemoteState loc remote = (loc, [], .error .mismatchedBatch) := by
  rw [applyRemoteState, h]

theorem mem_extract_state_not_complete {s' : MstState} {b : Batch}
    (h : b ∈ (extractCompleted s').state) : isCompleteBatch b = false := by
  have := (List.mem_filter.mp h).2
  simpa using this

theorem extract_state_disjoint {s' : MstState} {b : Batch}
    (h : b ∈ (extractCompleted s').state) : b ∉ (extractCompleted s').completed := by
  intro hc
  have h1 := mem_extract_state_not_complete h
  have h2 := (List.mem_filter.mp hc).2
  rw [h1] at h2
  cases h2

theorem mstInsert_ok_inv {s : MstState} {b : Batch} {r : OpResult}
    (h : mstInsert s b = .ok r) :
    ∃ s', rawInsert s b = .ok s' ∧ r = extractCompleted s' := by
  unfold mstInsert at h
  cases hri : rawInsert s b with
  | ok s' =>
    rw [hri] at h
    exact ⟨s', rfl, by injection h with h2; rw [h2]⟩
  | error e => rw [hri] at h; cases h

theorem mstUnion_ok_inv {a b : MstState} {r : OpResult}
    (h : mstUnion a b = .ok r) :
    ∃ s', rawUnion a b = .ok s' ∧ r = extractCompleted s' := by
  unfold mstUnion at h
  cases hru : rawUnion a b with
  | ok s' =>
    rw [hru] at h
    exact ⟨s', rfl, by injection h with h2; rw [h2]⟩
  | error e => rw [hru] at h; cases h

theorem reachable_no_complete {s : MstState} (h : Reachable s) :
    ∀ b ∈ s, isCompleteBatch b = false := by
  induction h with
  | empty => intro b hb; cases hb
  | insertStep _ heq _ =>
    intro b hb
    obtain ⟨s', _, hr⟩ := mstInsert_ok_inv heq
    exact mem_extract_state_not_complete (hr ▸ hb)
  | unionStep _ heq _ =>
    intro b hb
    obtain ⟨s', _, hr⟩ := mstUnion_ok_inv heq
    exact mem_extract_state_not_complete (hr ▸ hb)
  | sweepStep dl now _ ih =>
    intro b hb
    exact ih b (List.mem_filter.mp hb).1

theorem mergeBatch_ok_inv {a b m : Batch} (h : mergeBatch a b = .ok m) :
    compatible a b = true ∧ m.hash = a.hash ∧ m.txs = List.zipWith mergeTx a.txs b.txs := by
  unfold mergeBatch at h
  by_cases hc : compatible a b = true
  · rw [if_pos hc] at h
    injection h with h2
    rw [← h2]
    exact ⟨hc, rfl, rfl⟩
  · rw [if_neg hc] at h
    cases h

theorem mem_zip_zipWith {α β γ : Type} (f : α → β → γ) :
    ∀ (as : List α) (bs : List β) (p : (α × β) × γ),
      p ∈ (as.zip bs).zip (List.zipWith f as bs) → p.2 = f p.1.1 p.1.2 := by
  intro as
  induction as with
  | nil => intro bs p hp; simp at hp
  | cons a as ih =>
    intro bs p hp
    cases bs with
    | nil => simp at hp
    | cons b bs =>
      rw [List.zip_cons_cons, List.zipWith_cons_cons, List.zip_cons_cons] at hp
      rcases List.mem_cons.mp hp with h | h
      · rw [h]
      · exact ih bs p h

/-- C1: for every transaction handled by `transactionHandle`, if the count of
distinct signers is at least the quorum the transaction is forwarded
directly to consensus propagation via `propagate_transaction`, otherwise it
is passed to `MstProcessor::propagateTransaction`, and exactly one of the
two paths is taken.  The hypothesis records that signature collections are
keyed by signer identity and therefore carry no duplicate signers. -/
theorem c1_transactionHandle_routing (t : Tx) (h : (t.sigs.map Sig.signer).Nodup) :
    (t.quorum ≤ distinctSigners t → transactionHandle t = [Effect.propagateTransaction t]) ∧
    (distinctSigners t < t.quorum → transactionHandle t = [Effect.mstPropagateTransaction t]) ∧
    (transactionHandle t = [Effect.propagateTransaction t] ∨
      transactionHandle t = [Effect.mstPropagateTransaction t]) ∧
    ¬(transactionHandle t = [Effect.propagateTransaction t] ∧
      transactionHandle t = [Effect.mstPropagateTransaction t]) := by
  have hlen : distinctSigners t = t.sigs.length := by
    unfold distinctSigners
    rw [List.dedup_eq_self.mpr h, List.length_map]
  unfold transactionHandle
  by_cases hq : t.sigs.length < t.quorum
  · rw [if_pos hq]
    refine ⟨fun hge => by omega, fun _ => rfl, Or.inr rfl, ?_⟩
    rintro ⟨h1, _⟩
    simp at h1
  · rw [if_neg hq]
    refine ⟨fun _ => rfl, fun hlt => by omega, Or.inl rfl, ?_⟩
    rintro ⟨_, h2⟩
    simp at h2

/-- C1 witness: a quorum-1 transaction with one signature goes directly to
consensus propagation. -/
theorem c1_transactionHandle_routing_witness :
    wTx.quorum ≤ distinctSigners wTx ∧
    transactionHandle wTx = [Effect.propagateTransaction wTx] :=
  ⟨by decide, (c1_transactionHandle_routing wTx (by decide)).1 (by decide)⟩

/-- C3: every transaction emitted on the `onPreparedTransactions` stream is
forwarded to the consensus-propagation collaborator via
`propagate_transaction`. -/
theorem c3_prepared_forwarded {ts : List Tx} {t : Tx} (h : t ∈ ts) :
    Effect.propagateTransaction t ∈ processPreparedStream ts := by
  unfold processPreparedStream
  exact List.mem_flatMap.mpr ⟨t, h, by simp [onPreparedHandle]⟩

/-- C3 witness: a singleton prepared stream. -/
theorem c3_prepared_forwarded_witness :
    wTx ∈ [wTx] ∧ Effect.propagateTransaction wTx ∈ processPreparedStream [wTx] :=
  ⟨List.mem_singleton.mpr rfl, c3_prepared_forwarded (List.mem_singleton.mpr rfl)⟩

/-- C4 counterexample: for a concrete under-signed batch,
`transactionSequenceHandle` never calls MstProcessor's batch propagation
entry point — it calls `MstProcessor::propagateTransaction` once per
transaction of the batch instead (the code's else branch at lines 158-164,
with its TODO deferring batch-level MST propagation), refuting "every batch
that lacks signatures enters MST collection as a batch via MstProcessor's
batch propagation entry point". -/
theorem c4_counterexample :
    hasAllSignatures wB10 = false ∧
    Effect.mstPropagateBatch wB10 ∉ transactionSequenceHandle [wB10] ∧
    transactionSequenceHandle [wB10] = [Effect.mstPropagateTransaction w10Tx] := by
  decide

/-- C4 (amended): for every batch of a handled transaction sequence, a batch
that has all of its signatures is forwarded to consensus propagation via
`propagate_batch`, and a batch lacking signatures enters MST collection per
transaction — `MstProcessor::propagateTransaction` is called for each of
its transactions, while MstProcessor's batch propagation entry point is
never called for any batch; in the first case no MST propagation happens
for the batch, and in the second no `propagate_batch` happens, so no batch
takes both paths and none takes neither. -/
theorem c4_sequence_routing {seq : List Batch} {b : Batch} (h : b ∈ seq) :
    (hasAllSignatures b = true →
      Effect.propagateBatch b ∈ transactionSequenceHandle seq ∧
      batchHandle b = [Effect.propagateBatch b] ∧
      ∀ t : Tx, Effect.mstPropagateTransaction t ∉ batchHandle b) ∧
    (hasAllSignatures b = false →
      (∀ t ∈ b.txs, Effect.mstPropagateTransaction t ∈ transactionSequenceHandle seq) ∧
      batchHandle b = b.txs.map (fun t => Effect.mstPropagateTransaction t) ∧
      Effect.propagateBatch b ∉ batchHandle b) ∧
    (∀ c : Batch, Effect.mstPropagateBatch c ∉ transactionSequenceHandle seq) := by
  refine ⟨?_, ?_, ?_⟩
  · intro hall
    have hbh : batchHandle b = [Effect.propagateBatch b] := by
      rw [batchHandle, if_pos hall]
    refine ⟨List.mem_flatMap.mpr ⟨b, h, by rw [hbh]; simp⟩, hbh, ?_⟩
    intro t hmem
    rw [hbh] at hmem
    simp at hmem
  · intro hnall
    have hbh : batchHandle b = b.txs.map (fun t => Effect.mstPropagateTransaction t) := by
      rw [batchHandle, if_neg (by simp [hnall])]
    refine ⟨?_, hbh, ?_⟩
    · intro t ht
      exact List.mem_flatMap.mpr ⟨b, h, by rw [hbh]; exact List.mem_map_of_mem _ ht⟩
    · intro hmem
      rw [hbh] at hmem
      obtain ⟨t2, _, hteq⟩ := List.mem_map.mp hmem
      cases hteq
  · intro c hmem
    obtain ⟨b2, _, hin⟩ := List.mem_flatMap.mp hmem
    rw [batchHandle] at hin
    by_cases h2 : hasAllSignatures b2 = true
    · rw [if_pos h2] at hin
      simp at hin
    · rw [if_neg h2] at hin
      obtain ⟨t2, _, hteq⟩ := List.mem_map.mp hin
      cases hteq

/-- C4 witness: a fully signed batch in a singleton sequence is propagated
as a batch, and the MST batch entry point is not called. -/
theorem c4_sequence_routing_witness :
    hasAllSignatures wB4 = true ∧
    Effect.propagateBatch wB4 ∈ transactionSequenceHandle [wB4] ∧
    Effect.mstPropagateBatch wB4 ∉ transactionSequenceHandle [wB4] :=
  ⟨by decide,
    ((c4_sequence_routing (List.mem_singleton.mpr rfl)).1 (by decide)).1,
    (c4_sequence_routing (List.mem_singleton.mpr rfl)).2.2 wB4⟩

/-- C9: for every transaction emitted on the `onExpiredTransactions` stream
the processor publishes exactly one status on the status bus, built as an
MST-expired status carrying that same transaction's own hash. -/
theorem c9_expired_status (t : Tx) :
    (onExpiredHandle t).countP isPublishStatus = 1 ∧
    onExpiredHandle t = [Effect.publishStatus TxStatus.mstExpired t.hash] := by
  constructor
  · simp [onExpiredHandle, isPublishStatus]
  · rfl

/-- C10: for a batch for which `hasAllSignatures` is false,
`transactionSequenceHandle` calls `MstProcessor::propagateTransaction`
exactly once per transaction of the batch, in the batch's transaction
order, and never calls `propagate_batch` for that batch. -/
theorem c10_mst_per_transaction {b : Batch} (h : hasAllSignatures b = false) :
    (batchHandle b).filterMap mstCallOf = b.txs ∧
    (∀ t : Tx, (batchHandle b).count (Effect.mstPropagateTransaction t) = b.txs.count t) ∧
    Effect.propagateBatch b ∉ batchHandle b ∧
    transactionSequenceHandle [b] = b.txs.map (fun t => Effect.mstPropagateTransaction t) := by
  have hbh : batchHandle b = b.txs.map (fun t => Effect.mstPropagateTransaction t) := by
    rw [batchHandle, if_neg (by simp [h])]
  refine ⟨?_, ?_, ?_, ?_⟩
  · rw [hbh, List.filterMap_map]
    exact List.filterMap_some ..
  · intro t
    rw [hbh]
    exact List.count_map_of_injective b.txs _ (fun u v huv => by injection huv) t
  · intro hmem
    rw [hbh] at hmem
    obtain ⟨t2, _, hteq⟩ := List.mem_map.mp hmem
    cases hteq
  · simp [transactionSequenceHandle, hbh]

/-- C10 witness: a quorum-2 batch with a single signature. -/
theorem c10_mst_per_transaction_witness :
    hasAllSignatures wB10 = false ∧
    (batchHandle wB10).filterMap mstCallOf = wB10.txs :=
  ⟨by decide, (c10_mst_per_transaction (by decide)).1⟩

/-- C2 counterexample: inserting into the state holding one copy of a
quorum-2 single-transaction batch a second copy signed by a different
signer merges both signatures and reaches quorum, so completion extraction
removes the batch — the returned state holds no batch under that hash,
refuting "the resulting state holds exactly one batch under that hash". -/
theorem c2_counterexample :
    mstInsert [caB1] caB2 = .ok { state := [], completed := [caMerged] } := by
  simp [mstInsert, rawInsert, mergeBatch, compatible, mergeSigs, extractCompleted,
    isCompleteBatch, isCompleteTx, distinctSigners, mergeTx, caB1, caB2, caTx1, caTx2,
    caMerged, Batch.skeleton, Tx.skeleton]

/-- C2 (amended): inserting a batch whose hash is already present replaces
the stored batch with the merge of the two copies, provided the merged
batch is still incomplete: the returned state then holds exactly one batch
under that hash — the merge — and the merge's transactions carry the union
of the signatures of both copies (every signature of the stored copy, and a
signature for every signer of the inserted copy). -/
theorem c2_insert_merges {s : MstState} {x b m : Batch} {r : OpResult}
    (hs : sortedByHash s) (hx : x ∈ s) (hh : x.hash = b.hash)
    (hm : mergeBatch x b = .ok m) (hnc : isCompleteBatch m = false)
    (hr : mstInsert s b = .ok r) :
    r.state.filter (fun c => c.hash == b.hash) = [m] ∧
    (∀ p ∈ (x.txs.zip b.txs).zip m.txs,
      (∀ sg ∈ p.1.1.sigs, sg ∈ p.2.sigs) ∧
      (∀ sg ∈ p.1.2.sigs, ∃ u ∈ p.2.sigs, u.signer = sg.signer)) := by
  obtain ⟨hcomp, hmh, hmt⟩ := mergeBatch_ok_inv hm
  obtain ⟨pre, post, hdec, hmi, hpre, hpost⟩ := mstInsert_merge hs hx hh hm
  rw [hmi] at hr
  injection hr with hr2
  constructor
  · rw [← hr2]
    show (((pre ++ m :: post).filter fun c => !isCompleteBatch c).filter
      fun c => c.hash == b.hash) = [m]
    rw [List.filter_append, List.filter_append]
    have hpre2 : ((pre.filter fun c => !isCompleteBatch c).filter fun c => c.hash == b.hash) = [] := by
      rw [List.filter_eq_nil_iff]
      intro c hc
      have hclt : c.hash < x.hash := hpre c (List.mem_filter.mp hc).1
      simp [Nat.ne_of_lt (hh ▸ hclt)]
    have hmid : ((m :: post).filter fun c => !isCompleteBatch c)
        = m :: (post.filter fun c => !isCompleteBatch c) := by
      rw [List.filter_cons_of_pos (by simp [hnc])]
    rw [hpre2, hmid, List.filter_cons_of_pos (by rw [hmh, hh]; simp)]
    have hpost2 : ((post.filter fun c => !isCompleteBatch c).filter fun c => c.hash == b.hash) = [] := by
      rw [List.filter_eq_nil_iff]
      intro c hc
      have hcgt : x.hash < c.hash := hpost c (List.mem_filter.mp hc).1
      simp [Nat.ne_of_gt (hh ▸ hcgt)]
    rw [hpost2]
    rfl
  · intro p hp
    have hp2 : p.2 = mergeTx p.1.1 p.1.2 := by
      apply mem_zip_zipWith mergeTx x.txs b.txs
      rw [← hmt]
      exact hp
    constructor
    · intro sg hsg
      rw [hp2]
      exact mem_mergeSigs_left p.1.1.sigs p.1.2.sigs hsg
    · intro sg hsg
      rw [hp2]
      exact mem_mergeSigs_right p.1.1.sigs p.1.2.sigs hsg

/-- C2 witness: the `UpdateExistingState` scenario at quorum 3 — two copies
of the same single-transaction batch signed by different signers merge into
one stored batch carrying both signatures. -/
theorem c2_insert_merges_witness :
    mergeBatch w2B1 w2B2 = .ok w2M ∧
    mstInsert [w2B1] w2B2 = .ok { state := [w2M], completed := [] } ∧
    ({ state := [w2M], completed := [] } : OpResult).state.filter
      (fun c => c.hash == w2B2.hash) = [w2M] := by
  have pf1 : mergeBatch w2B1 w2B2 = .ok w2M := by
    simp [mergeBatch, compatible, mergeTx, mergeSigs, w2B1, w2B2, w2Tx1, w2Tx2, w2M,
      Batch.skeleton, Tx.skeleton]
  have pf2 : mstInsert [w2B1] w2B2 = .ok { state := [w2M], completed := [] } := by
    simp [mstInsert, rawInsert, mergeBatch, compatible, mergeSigs, extractCompleted,
      isCompleteBatch, isCompleteTx, distinctSigners, mergeTx, w2B1, w2B2, w2Tx1, w2Tx2,
      w2M, Batch.skeleton, Tx.skeleton]
  exact ⟨pf1, pf2,
    (c2_insert_merges (by decide) (List.mem_singleton.mpr rfl) (by decide) pf1
      (by decide) pf2).1⟩

/-- C5: completion exclusivity — for insert and union, no batch is present
both in the returned state and in the completion side-output of the same
operation, and a complete batch is never present in any reachable
MstState. -/
theorem c5_completion_exclusivity {s t u : MstState} {b : Batch} {r r2 : OpResult}
    (hi : mstInsert s b = .ok r) (hu : mstUnion s t = .ok r2) (hreach : Reachable u) :
    (∀ c ∈ r.state, c ∉ r.completed) ∧
    (∀ c ∈ r2.state, c ∉ r2.completed) ∧
    (∀ c ∈ u, isCompleteBatch c = false) := by
  obtain ⟨s1, _, hr1⟩ := mstInsert_ok_inv hi
  obtain ⟨s2, _, hr2⟩ := mstUnion_ok_inv hu
  subst hr1
  subst hr2
  exact ⟨fun c hc => extract_state_disjoint hc,
         fun c hc => extract_state_disjoint hc,
         reachable_no_complete hreach⟩

/-- C5 witness: inserting a fully signed batch into the empty state moves it
to the completion output, unioning two empty states yields the empty
result, and the empty state is reachable. -/
theorem c5_completion_exclusivity_witness :
    mstInsert [] wB4 = .ok { state := [], completed := [wB4] } ∧
    mstUnion [] [] = .ok { state := [], completed := [] } ∧
    (∀ c ∈ ([] : MstState), isCompleteBatch c = false) := by
  have h1 : mstInsert [] wB4 = .ok { state := [], completed := [wB4] } := by
    simp [mstInsert, rawInsert, extractCompleted, isCompleteBatch, isCompleteTx,
      distinctSigners, wB4, wTx]
  have h2 : mstUnion [] [] = .ok { state := [], completed := [] } := by
    simp [mstUnion, rawUnion, extractCompleted]
  exact ⟨h1, h2, (c5_completion_exclusivity h1 h2 Reachable.empty).2.2⟩

/-- C6 counterexample: two states each holding a copy of the same batch
whose single signature comes from the same signer but with different
signature bytes; the keep-first-seen-local rule makes the two union orders
return different states, refuting `union(a, b) == union(b, a)` for all
states. -/
theorem c6_counterexample : mstUnion c6A c6B ≠ mstUnion c6B c6A := by
  simp [mstUnion, rawUnion, okCons, mergeCons, mergeBatch, compatible, mergeSigs,
    extractCompleted, isCompleteBatch, isCompleteTx, distinctSigners, mergeTx,
    c6A, c6B, w2Tx1, Batch.skeleton, Tx.skeleton]

/-- C6 (amended): `union(a, b) == union(b, a)` holds whenever the two states
agree on the signature data of shared signers — for any two batches under
the same hash, a signer present in both copies carries identical signature
data (in particular whenever shared batches carry disjoint signer sets, and
for every pair of states exchanged by honest peers). -/
theorem c6_union_comm {a b : MstState} (hagree : statesAgree a b) :
    mstUnion a b = mstUnion b a :=
  mstUnion_comm hagree

/-- C6 witness: two copies of one batch signed by different signers. -/
theorem c6_union_comm_witness :
    statesAgree c6A [w2B2] ∧ mstUnion c6A [w2B2] = mstUnion [w2B2] c6A := by
  have h : statesAgree c6A [w2B2] := by
    simp [statesAgree, batchSigAgree, sigAgree, c6A, w2B2, w2Tx1, w2Tx2]
  exact ⟨h, c6_union_comm h⟩

/-- C7: a batch removed as expired by `sweepExpired(now)` appears exactly
once in the Expired output of that call, is no longer in the remaining
state, and a later `sweepExpired` on the remaining state does not re-emit
it — the Expired notification is emitted at most once per batch. -/
theorem c7_expired_once {dl : Batch → Nat} {s : MstState} {now now2 : Nat} {b : Batch}
    (hn : (s.map Batch.hash).Nodup) (hb : b ∈ (sweepExpired dl s now).2) :
    (sweepExpired dl s now).2.count b = 1 ∧
    b ∉ (sweepExpired dl s now).1 ∧
    b ∉ (sweepExpired dl (sweepExpired dl s now).1 now2).2 := by
  simp only [sweepExpired, extractExpired] at hb ⊢
  have hperm := List.perm_insertionSort (deadlineLt dl)
    (s.filter fun c => decide (dl c ≤ now))
  have hbf : b ∈ s.filter (fun c => decide (dl c ≤ now)) := hperm.mem_iff.mp hb
  have hmem : b ∈ s := (List.mem_filter.mp hbf).1
  have hdlb : decide (dl b ≤ now) = true := (List.mem_filter.mp hbf).2
  have hnotrem : b ∉ s.filter fun c => !(decide (dl c ≤ now)) := by
    intro hcon
    have := (List.mem_filter.mp hcon).2
    rw [hdlb] at this
    cases this
  refine ⟨?_, hnotrem, ?_⟩
  · rw [hperm.count_eq b]
    have hcf : List.count b (s.filter fun c => decide (dl c ≤ now)) = List.count b s :=
      List.count_filter hdlb
    rw [hcf]
    exact List.count_eq_one_of_mem (List.Nodup.of_map Batch.hash hn) hmem
  · intro hcon
    have hperm2 := List.perm_insertionSort (deadlineLt dl)
      ((s.filter fun c => !(decide (dl c ≤ now))).filter fun c => decide (dl c ≤ now2))
    have := (List.mem_filter.mp (hperm2.mem_iff.mp hcon)).1
    exact hnotrem this

/-- C7 witness: a single batch with deadline 3 swept at time 5 and again at
time 9. -/
theorem c7_expired_once_witness :
    ([w7B].map Batch.hash).Nodup ∧
    w7B ∈ (sweepExpired (fun _ => 3) [w7B] 5).2 ∧
    (sweepExpired (fun _ => 3) [w7B] 5).2.count w7B = 1 ∧
    w7B ∉ (sweepExpired (fun _ => 3) [w7B] 5).1 ∧
    w7B ∉ (sweepExpired (fun _ => 3) (sweepExpired (fun _ => 3) [w7B] 5).1 9).2 :=
  ⟨by decide, by decide, c7_expired_once (by decide) (by decide)⟩

/-- C8: when a stored batch and an incoming batch carry the same hash but
incompatible transaction sequences, the merge, the insert and the union all
fail with `MismatchedBatchError`, and applying such a remote snapshot
leaves the local state unchanged, emits nothing on the notification
streams, and reports the error synchronously to the caller. -/
theorem c8_mismatched_batch {a b : MstState} {x y : Batch}
    (hsa : sortedByHash a) (hsb : sortedByHash b) (hx : x ∈ a) (hy : y ∈ b)
    (hh : x.hash = y.hash) (hc : compatible x y = false) :
    mergeBatch x y = .error .mismatchedBatch ∧
    mstInsert a y = .error .mismatchedBatch ∧
    mstUnion a b = .error .mismatchedBatch ∧
    applyRemoteState a b = (a, [], .error .mismatchedBatch) := by
  have h3 := mstUnion_error_of_incompatible hsa hsb hx hy hh hc
  exact ⟨mergeBatch_error_of_incompatible hc,
    mstInsert_error_of_incompatible hsa hx hh hc, h3, applyRemoteState_error h3⟩

/-- C8 witness: a remote batch with the local batch's hash but an empty
transaction sequence. -/
theorem c8_mismatched_batch_witness :
    compatible mmX mmY = false ∧
    mstUnion [mmX] [mmY] = .error .mismatchedBatch ∧
    applyRemoteState [mmX] [mmY] = ([mmX], [], .error .mismatchedBatch) := by
  have h := c8_mismatched_batch (show sortedByHash [mmX] by decide)
    (show sortedByHash [mmY] by decide) (List.mem_singleton.mpr rfl)
    (List.mem_singleton.mpr rfl) (show mmX.hash = mmY.hash by decide)
    (show compatible mmX mmY = false by decide)
  exact ⟨by decide, h.2.2.1, h.2.2.2⟩
